import Mathlib

/-!
Shallow embedding of the adaptive-refinement quadrature engine
(`src/main.py`): the shared constructor validation of `SolutionMethod`,
the five concrete rule variants (left/right/middle rectangle, trapezoid,
Simpson) and their `calc` refinement loops.  Real arithmetic is modelled
over `ℚ` (the Python code computes with floats; every claim settled here
concerns exact arithmetic identities and control flow, not rounding).
The unbounded `while True` loop is modelled with explicit fuel: the loop
terminates iff some fuel yields `some` result.
-/

namespace QuadLab

/-- An Expression's evaluation capability: a numeric function.
Corresponds to `equation_func.subs(x, x_i).evalf()` in `main.py`. -/
abbrev Func := ℚ → ℚ

/-- The ways `SolutionMethod.__init__` can abort: one per `assert`
(in source order) plus the unguarded `(b - a) / n` raising
`ZeroDivisionError` when `n = 0`. -/
inductive InitError where
  | distinctness
  | ordering
  | tolerance
  | zeroDivision
deriving DecidableEq

/-- The attributes stored on a constructed `SolutionMethod` instance:
`_equation` (its evaluation function), `_a`, `_b`, `_n`, `_k`,
`_epsilon`, `_h`. -/
structure Method where
  f : Func
  a : ℚ
  b : ℚ
  n : ℤ
  k : ℕ
  epsilon : ℚ
  h : ℚ

/-- `SolutionMethod.__init__`: asserts `a != b`, then `a < b`, then
`epsilon > 0` (in that order), then computes `self._h = (b - a) / n`,
which in Python raises `ZeroDivisionError` when `n = 0`. -/
def solutionMethodInit (f : Func) (a b : ℚ) (n : ℤ) (k : ℕ) (epsilon : ℚ) :
    Except InitError Method :=
  if a = b then .error .distinctness
  else if ¬ a < b then .error .ordering
  else if ¬ 0 < epsilon then .error .tolerance
  else if n = 0 then .error .zeroDivision
  else .ok ⟨f, a, b, n, k, epsilon, (b - a) / (n : ℚ)⟩

/-- `RectangleLeftMethod.__init__`: fixes `k = 1`. -/
def rectangleLeftInit (f : Func) (a b : ℚ) (n : ℤ) (epsilon : ℚ) :
    Except InitError Method :=
  solutionMethodInit f a b n 1 epsilon

/-- `RectangleRightMethod.__init__`: fixes `k = 1`. -/
def rectangleRightInit (f : Func) (a b : ℚ) (n : ℤ) (epsilon : ℚ) :
    Except InitError Method :=
  solutionMethodInit f a b n 1 epsilon

/-- `RectangleMiddleMethod.__init__`: fixes `k = 2`. -/
def rectangleMiddleInit (f : Func) (a b : ℚ) (n : ℤ) (epsilon : ℚ) :
    Except InitError Method :=
  solutionMethodInit f a b n 2 epsilon

/-- `TrapezeMethod.__init__`: fixes `k = 2`. -/
def trapezeInit (f : Func) (a b : ℚ) (n : ℤ) (epsilon : ℚ) :
    Except InitError Method :=
  solutionMethodInit f a b n 2 epsilon

/-- `SimpsonMethod.__init__`: fixes `k = 4`. -/
def simpsonInit (f : Func) (a b : ℚ) (n : ℤ) (epsilon : ℚ) :
    Except InitError Method :=
  solutionMethodInit f a b n 4 epsilon

/-- Tag for the five concrete rule variants (each corresponds to one of
the five `calc` implementations in `main.py`). -/
inductive RuleKind where
  | rectLeft
  | rectRight
  | rectMiddle
  | trapeze
  | simpson
deriving DecidableEq

/-- The interior weight Simpson's `calc` gives sample index `i`:
`2` when `i % 2 == 0`, else `4` (Python integer parity on the loop
index). -/
def simpsonWeight (i : ℕ) : ℚ :=
  if i % 2 = 0 then 2 else 4

/-- The weighted sample points one pass of `calc` evaluates, in Python
evaluation order, as (weight, point) pairs.  `h = (b - a) / n` is the
locally recomputed step.  Python `range(n)` is empty for `n ≤ 0`
(`Int.toNat` sends nonpositive `n` to `0`); `range(1, n)` is
`List.range' 1 (n.toNat - 1)`. -/
def samplePoints (kind : RuleKind) (a b : ℚ) (n : ℤ) : List (ℚ × ℚ) :=
  let h : ℚ := (b - a) / (n : ℚ)
  match kind with
  | .rectLeft =>
      (List.range n.toNat).map (fun (i : ℕ) => ((1 : ℚ), a + h * i))
  | .rectRight =>
      (List.range n.toNat).map (fun (i : ℕ) => ((1 : ℚ), a + h + h * i))
  | .rectMiddle =>
      (List.range n.toNat).map (fun (i : ℕ) => ((1 : ℚ), a + h / 2 + h * i))
  | .trapeze =>
      ((List.range' 1 (n.toNat - 1)).map (fun (i : ℕ) => ((1 : ℚ), a + h * i)))
        ++ [(1 / 2, a), (1 / 2, b)]
  | .simpson =>
      ((List.range' 1 (n.toNat - 1)).map
          (fun i => (simpsonWeight i, a + h * i)))
        ++ [(1, a), (1, b)]

/-- The factor the accumulated sum is multiplied by at the end of a
pass: `h` for the rectangle and trapezoid rules, `h / 3` for Simpson. -/
def passMult (kind : RuleKind) (h : ℚ) : ℚ :=
  match kind with
  | .simpson => h / 3
  | _ => h

/-- One pass of the `while True` body of `calc`, acting on the running
accumulator `acc` (Python's `integral_value_first`).  Faithful to the
source: the accumulator is NOT reset to 0 at the start of a pass; the
pass adds its weighted sample values to `acc` and then multiplies the
whole accumulator by the rule's factor. -/
def passUpdate (kind : RuleKind) (f : Func) (a b : ℚ) (acc : ℚ) (n : ℤ) : ℚ :=
  (acc + ((samplePoints kind a b n).map (fun wx => wx.1 * f wx.2)).sum)
    * passMult kind ((b - a) / (n : ℚ))

/-- The `while True` refinement loop of `calc`, with explicit fuel.
`none` means the loop did not exit within `fuel` passes.  On each pass
it computes the new accumulator value, applies the Runge convergence
test `abs((new - old) / (2 ** k - 1)) < epsilon`, and either returns
the new value with the CURRENT `n` or doubles `n` and repeats. -/
def loopGo (kind : RuleKind) (f : Func) (a b : ℚ) (k : ℕ) (epsilon : ℚ) :
    ℕ → ℚ → ℤ → Option (ℚ × ℤ)
  | 0, _, _ => none
  | fuel + 1, acc, n =>
      let acc' := passUpdate kind f a b acc n
      if |(acc' - acc) / ((2 : ℚ) ^ k - 1)| < epsilon then some (acc', n)
      else loopGo kind f a b k epsilon fuel acc' (2 * n)

/-- `calc()`: runs the refinement loop from accumulator `0.0` and the
stored starting partition count `self._n`. -/
def Method.calcFuel (M : Method) (kind : RuleKind) (fuel : ℕ) :
    Option (ℚ × ℤ) :=
  loopGo kind M.f M.a M.b M.k M.epsilon fuel 0 M.n

/-- The Runge error expression `abs((cur - prev) / (2 ** k - 1))` used
by every `calc` implementation. -/
def rungeErr (k : ℕ) (prev cur : ℚ) : ℚ :=
  |(cur - prev) / ((2 : ℚ) ^ k - 1)|

/-- The sequence of accumulator values produced by successive passes of
`calc`, starting from the initial `integral_value_first = 0.0`; pass
`m` (0-indexed) runs with partition count `n0 * 2 ^ m` and produces
`estim … (m + 1)`. -/
def estim (kind : RuleKind) (f : Func) (a b : ℚ) (n0 : ℤ) : ℕ → ℚ
  | 0 => 0
  | m + 1 => passUpdate kind f a b (estim kind f a b n0 m) (n0 * 2 ^ m)

/-- Pass `m` (0-indexed) of `calc` satisfies the Runge convergence
test: the estimate it produced is within tolerance of the previous
estimate (which is `0` for the first pass, `m = 0`). -/
def convergesAt (kind : RuleKind) (f : Func) (a b : ℚ) (n0 : ℤ) (k : ℕ)
    (epsilon : ℚ) (m : ℕ) : Prop :=
  rungeErr k (estim kind f a b n0 m) (estim kind f a b n0 (m + 1)) < epsilon

section LoopLemmas

variable (kind : RuleKind) (f : Func) (a b : ℚ) (k : ℕ) (epsilon : ℚ)
variable (n0 : ℤ)

lemma loopGo_fuel_succ_of_some (fuel : ℕ) :
    ∀ acc n r, loopGo kind f a b k epsilon fuel acc n = some r →
      loopGo kind f a b k epsilon (fuel + 1) acc n = some r := by
  induction fuel with
  | zero =>
      intro acc n r hsome
      simp [loopGo] at hsome
  | succ fuel ih =>
      intro acc n r hsome
      rw [loopGo] at hsome
      rw [loopGo]
      by_cases hc :
          |(passUpdate kind f a b acc n - acc) / ((2 : ℚ) ^ k - 1)| < epsilon
      · simp only [if_pos hc] at hsome ⊢
        exact hsome
      · simp only [if_neg hc] at hsome ⊢
        exact ih _ _ _ hsome

lemma loopGo_fuel_mono {fuel fuel' : ℕ} (hle : fuel ≤ fuel') :
    ∀ acc n r, loopGo kind f a b k epsilon fuel acc n = some r →
      loopGo kind f a b k epsilon fuel' acc n = some r := by
  induction fuel' with
  | zero =>
      intro acc n r hsome
      have : fuel = 0 := Nat.le_zero.mp hle
      subst this
      exact hsome
  | succ fuel' ih =>
      intro acc n r hsome
      rcases Nat.lt_or_ge fuel (fuel' + 1) with hlt | hge
      · have hle' : fuel ≤ fuel' := Nat.lt_succ_iff.mp hlt
        exact loopGo_fuel_succ_of_some kind f a b k epsilon fuel' _ _ _
          (ih hle' _ _ _ hsome)
      · have : fuel = fuel' + 1 := le_antisymm hle hge
        subst this
        exact hsome

lemma loopGo_shift (t : ℕ) :
    ∀ m s : ℕ,
      (∀ j, m ≤ j → j < m + t → ¬ convergesAt kind f a b n0 k epsilon j) →
      loopGo kind f a b k epsilon (t + s)
          (estim kind f a b n0 m) (n0 * 2 ^ m) =
        loopGo kind f a b k epsilon s
          (estim kind f a b n0 (m + t)) (n0 * 2 ^ (m + t)) := by
  induction t with
  | zero =>
      intro m s _
      simp
  | succ t ih =>
      intro m s hmiss
      have hstep : t + 1 + s = (t + s) + 1 := by omega
      rw [hstep, loopGo]
      have hc : ¬ |(passUpdate kind f a b (estim kind f a b n0 m) (n0 * 2 ^ m)
          - estim kind f a b n0 m) / ((2 : ℚ) ^ k - 1)| < epsilon := by
        have := hmiss m le_rfl (by omega)
        simpa [convergesAt, rungeErr, estim] using this
      simp only [if_neg hc]
      have hn : 2 * (n0 * 2 ^ m) = n0 * 2 ^ (m + 1) := by ring
      have hacc : passUpdate kind f a b (estim kind f a b n0 m) (n0 * 2 ^ m)
          = estim kind f a b n0 (m + 1) := rfl
      rw [hn, hacc, ih (m + 1) s (by intro j h1 h2; exact hmiss j (by omega) (by omega))]
      have hidx : m + 1 + t = m + (t + 1) := by omega
      rw [hidx]

lemma loopGo_exit (m : ℕ)
    (hC : convergesAt kind f a b n0 k epsilon m) :
    loopGo kind f a b k epsilon 1 (estim kind f a b n0 m) (n0 * 2 ^ m) =
      some (estim kind f a b n0 (m + 1), n0 * 2 ^ m) := by
  rw [loopGo]
  have hc : |(passUpdate kind f a b (estim kind f a b n0 m) (n0 * 2 ^ m)
      - estim kind f a b n0 m) / ((2 : ℚ) ^ k - 1)| < epsilon := by
    simpa [convergesAt, rungeErr, estim] using hC
  simp only [if_pos hc]
  rfl

lemma loopGo_never
    (hmiss : ∀ j, ¬ convergesAt kind f a b n0 k epsilon j) :
    ∀ fuel m : ℕ,
      loopGo kind f a b k epsilon fuel
        (estim kind f a b n0 m) (n0 * 2 ^ m) = none := by
  intro fuel
  induction fuel with
  | zero => intro m; rfl
  | succ fuel ih =>
      intro m
      rw [loopGo]
      have hc : ¬ |(passUpdate kind f a b (estim kind f a b n0 m) (n0 * 2 ^ m)
          - estim kind f a b n0 m) / ((2 : ℚ) ^ k - 1)| < epsilon := by
        have := hmiss m
        simpa [convergesAt, rungeErr, estim] using this
      simp only [if_neg hc]
      have hn : 2 * (n0 * 2 ^ m) = n0 * 2 ^ (m + 1) := by ring
      have hacc : passUpdate kind f a b (estim kind f a b n0 m) (n0 * 2 ^ m)
          = estim kind f a b n0 (m + 1) := rfl
      rw [hn, hacc]
      exact ih (m + 1)

lemma loopGo_from_start (fuel : ℕ) :
    loopGo kind f a b k epsilon fuel 0 n0 =
      loopGo kind f a b k epsilon fuel
        (estim kind f a b n0 0) (n0 * 2 ^ 0) := by
  have h0 : estim kind f a b n0 0 = 0 := rfl
  have hn : n0 * 2 ^ 0 = n0 := by ring
  rw [h0, hn]

end LoopLemmas

/-- C3.  `calc()` terminates with result `(v, nf)` exactly when some
pass `m` is the FIRST pass whose Runge test `|I_m - I_{m-1}| / (2^k - 1)
< epsilon` succeeds, `v` is that pass's estimate and `nf` that pass's
partition count `n0 * 2^m` (not the doubled one).  The previous
estimate is initialized to `0` (`estim … 0 = 0` by definition), so the
test is already applied on the first pass (`m = 0` is allowed, in which
case `nf` is the starting partition count). -/
theorem claim3_loop_returns_first_converging_pass
    (kind : RuleKind) (M : Method) (v : ℚ) (nf : ℤ) :
    (∃ fuel, M.calcFuel kind fuel = some (v, nf)) ↔
      ∃ m : ℕ,
        (∀ j < m, ¬ convergesAt kind M.f M.a M.b M.n M.k M.epsilon j) ∧
        convergesAt kind M.f M.a M.b M.n M.k M.epsilon m ∧
        v = estim kind M.f M.a M.b M.n (m + 1) ∧
        nf = M.n * 2 ^ m := by
  constructor
  · rintro ⟨fuel, hrun⟩
    unfold Method.calcFuel at hrun
    rw [loopGo_from_start] at hrun
    have hex : ∃ j, convergesAt kind M.f M.a M.b M.n M.k M.epsilon j := by
      by_contra hno
      push_neg at hno
      rw [loopGo_never kind M.f M.a M.b M.k M.epsilon M.n hno fuel 0] at hrun
      exact Option.noConfusion hrun
    classical
    refine ⟨Nat.find hex, fun j hj => Nat.find_min hex hj, Nat.find_spec hex,
      ?_, ?_⟩ <;>
    · set m := Nat.find hex with hm
      have hfirst : loopGo kind M.f M.a M.b M.k M.epsilon (m + 1)
          (estim kind M.f M.a M.b M.n 0) (M.n * 2 ^ 0) =
          some (estim kind M.f M.a M.b M.n (m + 1), M.n * 2 ^ m) := by
        rw [loopGo_shift kind M.f M.a M.b M.k M.epsilon M.n m 0 1
          (by intro j h1 h2; exact Nat.find_min hex (by omega))]
        simpa using loopGo_exit kind M.f M.a M.b M.k M.epsilon M.n m
          (Nat.find_spec hex)
      have hboth :
          loopGo kind M.f M.a M.b M.k M.epsilon (max fuel (m + 1))
            (estim kind M.f M.a M.b M.n 0) (M.n * 2 ^ 0) =
            some (v, nf) ∧
          loopGo kind M.f M.a M.b M.k M.epsilon (max fuel (m + 1))
            (estim kind M.f M.a M.b M.n 0) (M.n * 2 ^ 0) =
            some (estim kind M.f M.a M.b M.n (m + 1), M.n * 2 ^ m) :=
        ⟨loopGo_fuel_mono kind M.f M.a M.b M.k M.epsilon
            (le_max_left _ _) _ _ _ hrun,
          loopGo_fuel_mono kind M.f M.a M.b M.k M.epsilon
            (le_max_right _ _) _ _ _ hfirst⟩
      have := hboth.1.symm.trans hboth.2
      simp only [Option.some.injEq, Prod.mk.injEq] at this
      first
        | exact this.1
        | exact this.2
  · rintro ⟨m, hmin, hC, hv, hnf⟩
    refine ⟨m + 1, ?_⟩
    unfold Method.calcFuel
    rw [loopGo_from_start]
    rw [loopGo_shift kind M.f M.a M.b M.k M.epsilon M.n m 0 1
      (by intro j h1 h2; exact hmin j (by omega))]
    subst hv hnf
    simpa using loopGo_exit kind M.f M.a M.b M.k M.epsilon M.n m hC

/-- Witness for C3: for the constant-zero integrand with the Left
Rectangle rule on `[0, 1]`, starting `n = 4`, the very first pass
already converges (estimate `0`, error `0 < 1/100`), so `calc` returns
the starting partition count; the characterization theorem turns the
fuel-1 run into the first-converging-pass form. -/
theorem claim3_witness :
    ∃ m : ℕ,
      (∀ j < m, ¬ convergesAt .rectLeft (fun _ => 0) 0 1 4 1 (1 / 100) j) ∧
      convergesAt .rectLeft (fun _ => 0) 0 1 4 1 (1 / 100) m ∧
      (0 : ℚ) = estim .rectLeft (fun _ => 0) 0 1 4 (m + 1) ∧
      (4 : ℤ) = 4 * 2 ^ m :=
  (claim3_loop_returns_first_converging_pass .rectLeft
    ⟨fun _ => 0, 0, 1, 4, 1, 1 / 100, 1 / 4⟩ 0 4).mp
    ⟨1, by
      unfold Method.calcFuel
      rw [loopGo]
      have hpass : passUpdate .rectLeft (fun _ => 0) 0 1 0 4 = 0 := by
        simp [passUpdate]
      simp only [hpass]
      norm_num⟩

lemma loopGo_count_pow (kind : RuleKind) (f : Func) (a b : ℚ) (k : ℕ)
    (epsilon : ℚ) (fuel : ℕ) :
    ∀ (acc : ℚ) (n : ℤ) (v : ℚ) (nf : ℤ),
      loopGo kind f a b k epsilon fuel acc n = some (v, nf) →
      ∃ m : ℕ, nf = n * 2 ^ m ∧ (0 ≤ n → n ≤ nf) := by
  induction fuel with
  | zero =>
      intro acc n v nf hrun
      simp [loopGo] at hrun
  | succ fuel ih =>
      intro acc n v nf hrun
      rw [loopGo] at hrun
      by_cases hc :
          |(passUpdate kind f a b acc n - acc) / ((2 : ℚ) ^ k - 1)| < epsilon
      · simp only [if_pos hc, Option.some.injEq, Prod.mk.injEq] at hrun
        exact ⟨0, by omega, fun _ => by omega⟩
      · simp only [if_neg hc] at hrun
        obtain ⟨m, hm, hle⟩ := ih _ _ _ _ hrun
        refine ⟨m + 1, by rw [hm]; ring, fun hn => ?_⟩
        have h2n : (0 : ℤ) ≤ 2 * n := by omega
        have := hle h2n
        omega

/-- Counterexample for C10 as stated: the constructor accepts the
negative starting count `n = -1` (cf. C9), and for the Trapezoid rule
on the constant integrand `1` over `[0, 1]` with `epsilon = 1/100`,
`calc()` terminates (within 6 passes) returning final partition count
`-32 = -1 * 2^5`, which IS smaller than the starting count `-1`; so
"never smaller than the starting count" fails. -/
theorem claim10_counterexample :
    trapezeInit (fun _ => 1) 0 1 (-1) (1 / 100) =
      .ok ⟨fun _ => 1, 0, 1, -1, 2, 1 / 100, -1⟩ ∧
    Method.calcFuel ⟨fun _ => 1, 0, 1, -1, 2, 1 / 100, -1⟩ .trapeze 6 =
      some (-483 / 16384, -32) ∧
    ¬ ((-1 : ℤ) ≤ -32) := by
  refine ⟨?_, ?_, by omega⟩
  · norm_num [trapezeInit, solutionMethodInit]
  · unfold Method.calcFuel
    iterate 6
      (rw [loopGo];
       norm_num [passUpdate, samplePoints, passMult, List.range', abs_lt])

/-- C10, amended.  Whenever `calc()` terminates, the returned final
partition count is the starting count times `2 ^ m` for some `m ≥ 0`;
and when the starting count is nonnegative it is never smaller than
the starting count (the original claim's unconditional "never
smaller" fails for negative starting counts, which the constructor
accepts). -/
theorem claim10_final_count_is_pow_mul
    (kind : RuleKind) (M : Method) (fuel : ℕ) (v : ℚ) (nf : ℤ)
    (hrun : M.calcFuel kind fuel = some (v, nf)) :
    ∃ m : ℕ, nf = M.n * 2 ^ m ∧ (0 ≤ M.n → M.n ≤ nf) := by
  unfold Method.calcFuel at hrun
  exact loopGo_count_pow kind M.f M.a M.b M.k M.epsilon fuel _ _ _ _ hrun

/-- Witness for C10 (amended): the constant-zero integrand with the
Left Rectangle rule, starting `n = 4`, converges on the first pass
returning count `4 = 4 * 2^0`. -/
theorem claim10_witness :
    ∃ m : ℕ, (4 : ℤ) = 4 * 2 ^ m ∧ ((0 : ℤ) ≤ 4 → (4 : ℤ) ≤ 4) :=
  claim10_final_count_is_pow_mul .rectLeft
    ⟨fun _ => 0, 0, 1, 4, 1, 1 / 100, 1 / 4⟩ 1 0 4
    (by
      unfold Method.calcFuel
      rw [loopGo]
      have hpass : passUpdate .rectLeft (fun _ => 0) 0 1 0 4 = 0 := by
        simp [passUpdate]
      simp only [hpass]
      norm_num)

/-- State-threaded version of the refinement loop: the instance record
is carried through every iteration and returned next to the result.
Each Python statement of `calc` only READS `self` attributes
(`self._equation`, `self._a`, `self._b`, `self._k`, `self._epsilon`)
and assigns locals (`integral_value_first`, `integral_value_zero`,
`h`, `n`); no statement assigns to a `self` attribute, so the record
is passed through unchanged. -/
def calcGoS (kind : RuleKind) (M : Method) :
    ℕ → ℚ → ℤ → Option ((ℚ × ℤ) × Method)
  | 0, _, _ => none
  | fuel + 1, acc, n =>
      let acc' := passUpdate kind M.f M.a M.b acc n
      if |(acc' - acc) / ((2 : ℚ) ^ M.k - 1)| < M.epsilon then
        some ((acc', n), M)
      else calcGoS kind M fuel acc' (2 * n)

/-- `calc()` with the instance state made explicit: starts from
accumulator `0` and the stored `self._n`, and returns the result
together with the instance as it is after the call. -/
def Method.calcS (M : Method) (kind : RuleKind) (fuel : ℕ) :
    Option ((ℚ × ℤ) × Method) :=
  calcGoS kind M fuel 0 M.n

lemma calcGoS_eq_map (kind : RuleKind) (M : Method) (fuel : ℕ) :
    ∀ (acc : ℚ) (n : ℤ),
      calcGoS kind M fuel acc n =
        (loopGo kind M.f M.a M.b M.k M.epsilon fuel acc n).map
          (fun r => (r, M)) := by
  induction fuel with
  | zero => intro acc n; rfl
  | succ fuel ih =>
      intro acc n
      rw [calcGoS, loopGo]
      by_cases hc : |(passUpdate kind M.f M.a M.b acc n - acc) /
          ((2 : ℚ) ^ M.k - 1)| < M.epsilon
      · simp only [if_pos hc]
        rfl
      · simp only [if_neg hc]
        exact ih _ _

/-- C8.  `calc()` leaves every attribute of the rule instance
unchanged: running the state-threaded loop returns exactly the record
it started with (same Expression, `_a`, `_b`, `_n`, `_k`, `_epsilon`,
`_h`) next to the same result the stateless loop computes.  In
particular the doubled partition count lives only in the local `n`:
the returned final count is not written back into `self._n`. -/
theorem claim8_calc_leaves_instance_unchanged
    (kind : RuleKind) (M : Method) (fuel : ℕ) :
    M.calcS kind fuel = (M.calcFuel kind fuel).map (fun r => (r, M)) := by
  unfold Method.calcS Method.calcFuel
  exact calcGoS_eq_map kind M fuel 0 M.n

/-- Fallible evaluation of the weighted sample terms of one pass, in
Python evaluation order: `none` models the Expression raising at some
sample point, in which case the whole pass evaluation raises. -/
def sumTermsE (f : ℚ → Option ℚ) : List (ℚ × ℚ) → Option ℚ
  | [] => some 0
  | wx :: rest =>
      (f wx.2).bind fun v => (sumTermsE f rest).map fun s => wx.1 * v + s

/-- One pass of `calc` over a fallible Expression: if any sample
evaluation raises, the pass raises. -/
def passUpdateE (kind : RuleKind) (f : ℚ → Option ℚ) (a b : ℚ)
    (acc : ℚ) (n : ℤ) : Option ℚ :=
  (sumTermsE f (samplePoints kind a b n)).map
    fun s => (acc + s) * passMult kind ((b - a) / (n : ℚ))

/-- The refinement loop over a fallible Expression.  `none`: fuel ran
out; `some (.error ())`: an evaluation error escaped `calc` (there is
no handler in the loop); `some (.ok r)`: normal result. -/
def loopGoE (kind : RuleKind) (f : ℚ → Option ℚ) (a b : ℚ) (k : ℕ)
    (epsilon : ℚ) : ℕ → ℚ → ℤ → Option (Except Unit (ℚ × ℤ))
  | 0, _, _ => none
  | fuel + 1, acc, n =>
      match passUpdateE kind f a b acc n with
      | none => some (.error ())
      | some acc' =>
          if |(acc' - acc) / ((2 : ℚ) ^ k - 1)| < epsilon then
            some (.ok (acc', n))
          else loopGoE kind f a b k epsilon fuel acc' (2 * n)

lemma sumTermsE_total (g : Func) :
    ∀ l : List (ℚ × ℚ),
      sumTermsE (fun x => some (g x)) l =
        some ((l.map (fun wx => wx.1 * g wx.2)).sum) := by
  intro l
  induction l with
  | nil => rfl
  | cons wx rest ih => simp [sumTermsE, ih]

/-- C7.  First conjunct: if the Expression raises at a sample point of
the current pass — at any point of the run, since `acc` and `n` are
arbitrary — the refinement loop immediately returns the propagated
error: no handler intervenes and no partial `(value, count)` result is
produced on that path.  Second conjunct: over an Expression that never
raises, the fallible loop agrees with the plain one and only produces
`.ok` results, so the error outcome occurs exactly on evaluation
failure. -/
theorem claim7_eval_error_propagates :
    (∀ (kind : RuleKind) (f : ℚ → Option ℚ) (a b : ℚ) (k : ℕ)
        (epsilon : ℚ) (fuel : ℕ) (acc : ℚ) (n : ℤ),
      passUpdateE kind f a b acc n = none →
      loopGoE kind f a b k epsilon (fuel + 1) acc n = some (.error ())) ∧
    (∀ (kind : RuleKind) (g : Func) (a b : ℚ) (k : ℕ) (epsilon : ℚ)
        (fuel : ℕ) (acc : ℚ) (n : ℤ),
      loopGoE kind (fun x => some (g x)) a b k epsilon fuel acc n =
        (loopGo kind g a b k epsilon fuel acc n).map .ok) := by
  constructor
  · intro kind f a b k epsilon fuel acc n hfail
    rw [loopGoE, hfail]
  · intro kind g a b k epsilon fuel
    induction fuel with
    | zero => intro acc n; rfl
    | succ fuel ih =>
        intro acc n
        have hpass : passUpdateE kind (fun x => some (g x)) a b acc n =
            some (passUpdate kind g a b acc n) := by
          simp [passUpdateE, passUpdate, sumTermsE_total]
        rw [loopGoE, loopGo, hpass]
        by_cases hc : |(passUpdate kind g a b acc n - acc) /
            ((2 : ℚ) ^ k - 1)| < epsilon
        · simp only [if_pos hc]
          rfl
        · simp only [if_neg hc]
          exact ih _ _

/-- Witness for C7: the Expression `x ↦ 1/x seen as raising at 0`
raises at the very first Left-Rectangle sample point `x_0 = 0` of
`[0, 1]` with `n = 2`; the pass evaluation fails and `calc`
propagates the error. -/
theorem claim7_witness :
    passUpdateE .rectLeft (fun x => if x = 0 then none else some (1 / x))
        0 1 0 2 = none ∧
    loopGoE .rectLeft (fun x => if x = 0 then none else some (1 / x))
        0 1 1 (1 / 100) 1 0 2 = some (.error ()) := by
  have hfail : passUpdateE .rectLeft
      (fun x => if x = 0 then none else some (1 / x)) 0 1 0 2 = none := by
    norm_num [passUpdateE, sumTermsE, samplePoints]
  exact ⟨hfail,
    claim7_eval_error_propagates.1 .rectLeft _ 0 1 1 (1 / 100) 0 0 2 hfail⟩

/-- C4, amended.  Construction fails with the distinctness error when
`a = b`, with the ordering error when `a > b`, with the tolerance
error when `a < b` but `epsilon ≤ 0`; under any of those violations no
instance is ever produced.  Construction succeeds when `a < b`,
`epsilon > 0` AND `n ≠ 0` (the original claim's success condition
lacked `n ≠ 0`: the unvalidated step computation `(b - a) / n` raises
`ZeroDivisionError` for `n = 0`, cf. C9). -/
theorem claim4_construction_validation (f : Func) (a b : ℚ) (n : ℤ)
    (k : ℕ) (epsilon : ℚ) :
    (a = b → solutionMethodInit f a b n k epsilon = .error .distinctness) ∧
    (b < a → solutionMethodInit f a b n k epsilon = .error .ordering) ∧
    (a < b → epsilon ≤ 0 →
      solutionMethodInit f a b n k epsilon = .error .tolerance) ∧
    ((a = b ∨ b < a ∨ epsilon ≤ 0) →
      ∀ M, solutionMethodInit f a b n k epsilon ≠ .ok M) ∧
    (a < b → 0 < epsilon → n ≠ 0 →
      ∃ M, solutionMethodInit f a b n k epsilon = .ok M) := by
  have hdist : a = b →
      solutionMethodInit f a b n k epsilon = .error .distinctness := by
    intro hab
    rw [solutionMethodInit, if_pos hab]
  have hord : b < a →
      solutionMethodInit f a b n k epsilon = .error .ordering := by
    intro hba
    rw [solutionMethodInit, if_neg hba.ne', if_pos (not_lt.mpr hba.le)]
  have htol : a < b → epsilon ≤ 0 →
      solutionMethodInit f a b n k epsilon = .error .tolerance := by
    intro hab heps
    rw [solutionMethodInit, if_neg hab.ne, if_neg (not_not_intro hab),
      if_pos (not_lt.mpr heps)]
  refine ⟨hdist, hord, htol, ?_, ?_⟩
  · rintro (hab | hba | heps) M
    · rw [hdist hab]; intro hcontra; exact Except.noConfusion hcontra
    · rw [hord hba]; intro hcontra; exact Except.noConfusion hcontra
    · rcases lt_trichotomy a b with h1 | h1 | h1
      · rw [htol h1 heps]; intro hcontra; exact Except.noConfusion hcontra
      · rw [hdist h1]; intro hcontra; exact Except.noConfusion hcontra
      · rw [hord h1]; intro hcontra; exact Except.noConfusion hcontra
  · intro hab heps hn
    refine ⟨⟨f, a, b, n, k, epsilon, (b - a) / (n : ℚ)⟩, ?_⟩
    rw [solutionMethodInit, if_neg hab.ne, if_neg (not_not_intro hab),
      if_neg (not_not_intro heps), if_neg hn]

/-- Counterexample for C4 as stated: with `a = 0 < 1 = b` and
`epsilon = 1/100 > 0` — exactly the claim's success condition — the
Left Rectangle constructor still fails, because the starting partition
count `0` makes the step computation `(b - a) / n` raise
`ZeroDivisionError`.  So "construction with `a < b` and `epsilon > 0`
succeeds" is false as stated. -/
theorem claim4_counterexample :
    rectangleLeftInit (fun _ => 0) 0 1 0 (1 / 100) =
      .error .zeroDivision ∧
    (0 : ℚ) < 1 ∧ (0 : ℚ) < 1 / 100 := by
  refine ⟨?_, by norm_num, by norm_num⟩
  norm_num [rectangleLeftInit, solutionMethodInit]

/-- Witness for C4 (amended), discharging each conjunct at concrete
inputs: equal bounds, reversed bounds, nonpositive tolerance, a
rejected violation, and a valid construction. -/
theorem claim4_witness :
    solutionMethodInit (fun _ => 0) 0 0 4 1 (1 / 100) =
      .error .distinctness ∧
    solutionMethodInit (fun _ => 0) 1 0 4 1 (1 / 100) =
      .error .ordering ∧
    solutionMethodInit (fun _ => 0) 0 1 4 1 0 = .error .tolerance ∧
    solutionMethodInit (fun _ => 0) 0 1 4 1 0 ≠
      .ok ⟨fun _ => 0, 0, 1, 4, 1, 0, 1 / 4⟩ ∧
    (∃ M, solutionMethodInit (fun _ => 0) 0 1 4 1 (1 / 100) = .ok M) :=
  ⟨(claim4_construction_validation _ 0 0 4 1 (1 / 100)).1 rfl,
    (claim4_construction_validation _ 1 0 4 1 (1 / 100)).2.1 (by norm_num),
    (claim4_construction_validation _ 0 1 4 1 0).2.2.1 (by norm_num) le_rfl,
    (claim4_construction_validation _ 0 1 4 1 0).2.2.2.1
      (Or.inr (Or.inr le_rfl)) _,
    (claim4_construction_validation _ 0 1 4 1 (1 / 100)).2.2.2.2
      (by norm_num) (by norm_num) (by norm_num)⟩

lemma solutionMethodInit_ok_fields (f : Func) (a b : ℚ) (n : ℤ) (k : ℕ)
    (epsilon : ℚ) (M : Method)
    (hok : solutionMethodInit f a b n k epsilon = .ok M) :
    M.k = k ∧ M.n = n ∧ M.a = a ∧ M.b = b ∧ M.epsilon = epsilon ∧
      M.f = f ∧ M.h = (b - a) / (n : ℚ) := by
  unfold solutionMethodInit at hok
  split_ifs at hok
  injection hok with hM
  subst hM
  exact ⟨rfl, rfl, rfl, rfl, rfl, rfl, rfl⟩

/-- C5.  The order `k` in the Runge denominator `2^k - 1` is fixed per
rule variant by its constructor: `k = 1` for Left and Right Rectangle
(denominator `1`), `k = 2` for Midpoint Rectangle and Trapezoid
(denominator `3`), `k = 4` for Simpson (denominator `15`). -/
theorem claim5_order_fixed_per_variant (f : Func) (a b : ℚ) (n : ℤ)
    (epsilon : ℚ) (M : Method) :
    (rectangleLeftInit f a b n epsilon = .ok M →
      M.k = 1 ∧ (2 : ℚ) ^ M.k - 1 = 1) ∧
    (rectangleRightInit f a b n epsilon = .ok M →
      M.k = 1 ∧ (2 : ℚ) ^ M.k - 1 = 1) ∧
    (rectangleMiddleInit f a b n epsilon = .ok M →
      M.k = 2 ∧ (2 : ℚ) ^ M.k - 1 = 3) ∧
    (trapezeInit f a b n epsilon = .ok M →
      M.k = 2 ∧ (2 : ℚ) ^ M.k - 1 = 3) ∧
    (simpsonInit f a b n epsilon = .ok M →
      M.k = 4 ∧ (2 : ℚ) ^ M.k - 1 = 15) := by
  refine ⟨fun hok => ?_, fun hok => ?_, fun hok => ?_, fun hok => ?_,
    fun hok => ?_⟩ <;>
  · have hk := (solutionMethodInit_ok_fields _ _ _ _ _ _ _ hok).1
    rw [hk]
    norm_num

/-- Witness for C5: concrete successful constructions of each of the
five variants over `x ↦ 0` on `[0, 1]` with `n = 4`,
`epsilon = 1/100`, with the advertised `k` and denominator. -/
theorem claim5_witness :
    (Method.k ⟨fun _ => 0, 0, 1, 4, 1, 1 / 100, 1 / 4⟩ = 1 ∧
      (2 : ℚ) ^ Method.k ⟨fun _ => 0, 0, 1, 4, 1, 1 / 100, 1 / 4⟩ - 1 = 1) ∧
    (Method.k ⟨fun _ => 0, 0, 1, 4, 2, 1 / 100, 1 / 4⟩ = 2 ∧
      (2 : ℚ) ^ Method.k ⟨fun _ => 0, 0, 1, 4, 2, 1 / 100, 1 / 4⟩ - 1 = 3) ∧
    (Method.k ⟨fun _ => 0, 0, 1, 4, 4, 1 / 100, 1 / 4⟩ = 4 ∧
      (2 : ℚ) ^ Method.k ⟨fun _ => 0, 0, 1, 4, 4, 1 / 100, 1 / 4⟩ - 1 = 15) :=
  ⟨(claim5_order_fixed_per_variant (fun _ => 0) 0 1 4 (1 / 100)
      ⟨fun _ => 0, 0, 1, 4, 1, 1 / 100, 1 / 4⟩).1
      (by norm_num [rectangleLeftInit, solutionMethodInit]),
    (claim5_order_fixed_per_variant (fun _ => 0) 0 1 4 (1 / 100)
      ⟨fun _ => 0, 0, 1, 4, 2, 1 / 100, 1 / 4⟩).2.2.2.1
      (by norm_num [trapezeInit, solutionMethodInit]),
    (claim5_order_fixed_per_variant (fun _ => 0) 0 1 4 (1 / 100)
      ⟨fun _ => 0, 0, 1, 4, 4, 1 / 100, 1 / 4⟩).2.2.2.2
      (by norm_num [simpsonInit, solutionMethodInit])⟩

/-- C9.  The constructor never validates the starting partition count:
with valid bounds and tolerance, `n = 0` aborts with the division
error coming from the unguarded `(b - a) / n` (after the three asserts
have passed), while any negative `n` produces a usable instance
storing `n` and the (negative) step `(b - a) / n` — although the
spec's data model calls `n` a positive integer. -/
theorem claim9_partition_count_not_validated (f : Func) (a b : ℚ)
    (k : ℕ) (epsilon : ℚ) (n : ℤ) (hab : a < b) (heps : 0 < epsilon) :
    solutionMethodInit f a b 0 k epsilon = .error .zeroDivision ∧
    (n < 0 → ∃ M, solutionMethodInit f a b n k epsilon = .ok M ∧
      M.n = n ∧ M.h = (b - a) / (n : ℚ)) := by
  constructor
  · rw [solutionMethodInit, if_neg hab.ne, if_neg (not_not_intro hab),
      if_neg (not_not_intro heps), if_pos rfl]
  · intro hn
    refine ⟨⟨f, a, b, n, k, epsilon, (b - a) / (n : ℚ)⟩, ?_, rfl, rfl⟩
    rw [solutionMethodInit, if_neg hab.ne, if_neg (not_not_intro hab),
      if_neg (not_not_intro heps), if_neg (by omega)]

/-- Witness for C9: on `[0, 1]` with `epsilon = 1/100`, construction
with `n = 0` hits the division error and construction with `n = -3`
succeeds. -/
theorem claim9_witness :
    solutionMethodInit (fun _ => 0) 0 1 0 1 (1 / 100) =
      .error .zeroDivision ∧
    (∃ M, solutionMethodInit (fun _ => 0) 0 1 (-3) 1 (1 / 100) = .ok M ∧
      M.n = -3 ∧ M.h = (1 - 0) / ((-3 : ℤ) : ℚ)) :=
  ⟨(claim9_partition_count_not_validated (fun _ => 0) 0 1 1 (1 / 100) (-3)
      (by norm_num) (by norm_num)).1,
    (claim9_partition_count_not_validated (fun _ => 0) 0 1 1 (1 / 100) (-3)
      (by norm_num) (by norm_num)).2 (by norm_num)⟩

/-- The integrand `f(x) = x²` (menu function 2 in `main.py`). -/
def sqFn : Func := fun x => x ^ 2

/-- Modelled from the spec (§4.3): the Left Rectangle rule's
single-pass composite estimate for partition count `n` alone,
`h · Σ_{i=0}^{n-1} evaluate(a + h·i)` with `h = (b - a) / n` —
a function of the current `n` only, carrying nothing over from
previous passes. -/
def specLeftRectEstimate (f : Func) (a b : ℚ) (n : ℤ) : ℚ :=
  ((b - a) / (n : ℚ)) *
    ((List.range n.toNat).map (fun i => f (a + (b - a) / (n : ℚ) * i))).sum

/-- C1 (code-bug evidence).  `calc` never resets
`integral_value_first` between passes, so from the second pass on the
pass estimate incorporates the previous pass's value.  For `f = x²` on
`[0, 1]`: the first pass (accumulator `0`) at `n = 2` agrees with the
spec's single-pass formula (both `1/8`), but the second pass at
`n = 4` — whose accumulator starts at the pass-1 value `1/8` —
produces `(1/8 + Σ)·h = 1/4`, while the spec's formula
`h·Σ evaluate(x_i)` at `n = 4` gives `7/32 ≠ 1/4`. -/
theorem claim1_pass_carries_previous_value :
    passUpdate .rectLeft sqFn 0 1 0 2 = 1 / 8 ∧
    specLeftRectEstimate sqFn 0 1 2 = 1 / 8 ∧
    passUpdate .rectLeft sqFn 0 1 (1 / 8) 4 = 1 / 4 ∧
    specLeftRectEstimate sqFn 0 1 4 = 7 / 32 ∧
    (1 / 4 : ℚ) ≠ 7 / 32 := by
  have hr2 : List.range (Int.toNat 2) = [0, 1] := rfl
  have hr4 : List.range (Int.toNat 4) = [0, 1, 2, 3] := rfl
  refine ⟨?_, ?_, ?_, ?_, by norm_num⟩ <;>
    norm_num [passUpdate, samplePoints, passMult, specLeftRectEstimate,
      sqFn, hr2, hr4]

/-- Counterexample for C2 as stated.  Scenario A (`f(x) = x²` on
`[0, 1]`, Simpson, starting `n = 4`, `epsilon = 0.01`) does NOT
converge on the very first pass: the first Runge test compares the
pass-1 estimate `1/3` against the initialized previous estimate `0`,
giving `(1/3)/15 = 1/45 ≥ 1/100`, so one doubling occurs (fuel 1
returns `none`); the run converges on the second pass with value
`25/72 ≈ 0.3472 ≠ 1/3` (so not `≈ 0.3333…`) and final partition count
`8 ≠ 4`. -/
theorem claim2_counterexample :
    simpsonInit sqFn 0 1 4 (1 / 100) =
      .ok ⟨sqFn, 0, 1, 4, 4, 1 / 100, 1 / 4⟩ ∧
    Method.calcFuel ⟨sqFn, 0, 1, 4, 4, 1 / 100, 1 / 4⟩ .simpson 1 = none ∧
    Method.calcFuel ⟨sqFn, 0, 1, 4, 4, 1 / 100, 1 / 4⟩ .simpson 2 =
      some (25 / 72, 8) ∧
    (25 / 72 : ℚ) ≠ 1 / 3 ∧ (8 : ℤ) ≠ 4 := by
  refine ⟨?_, ?_, ?_, by norm_num, by omega⟩
  · norm_num [simpsonInit, solutionMethodInit]
  · unfold Method.calcFuel
    rw [loopGo]
    norm_num [passUpdate, samplePoints, passMult, sqFn, simpsonWeight,
      List.range', abs_lt]
    rw [loopGo]
  · unfold Method.calcFuel
    iterate 2
      (rw [loopGo];
       norm_num [passUpdate, samplePoints, passMult, sqFn, simpsonWeight,
         List.range', abs_lt])

/-- C2, amended.  On scenario A the constructed Simpson instance's
`calc` does not exit within the first pass; it performs exactly one
doubling and terminates on the second pass, returning value `25/72`
(`≈ 0.3472`; the pass-2 accumulator starts from the pass-1 value
`1/3`, cf. C1) and final partition count `8`. -/
theorem claim2_scenario_a_result :
    simpsonInit sqFn 0 1 4 (1 / 100) =
      .ok ⟨sqFn, 0, 1, 4, 4, 1 / 100, 1 / 4⟩ ∧
    Method.calcFuel ⟨sqFn, 0, 1, 4, 4, 1 / 100, 1 / 4⟩ .simpson 1 = none ∧
    Method.calcFuel ⟨sqFn, 0, 1, 4, 4, 1 / 100, 1 / 4⟩ .simpson 2 =
      some (25 / 72, 8) := by
  refine ⟨?_, ?_, ?_⟩
  · norm_num [simpsonInit, solutionMethodInit]
  · unfold Method.calcFuel
    rw [loopGo]
    norm_num [passUpdate, samplePoints, passMult, sqFn, simpsonWeight,
      List.range', abs_lt]
    rw [loopGo]
  · unfold Method.calcFuel
    iterate 2
      (rw [loopGo];
       norm_num [passUpdate, samplePoints, passMult, sqFn, simpsonWeight,
         List.range', abs_lt])

/-- Harmonic sum `1/1 + 1/2 + ⋯ + 1/t`. -/
def harm (t : ℕ) : ℚ :=
  ∑ j in Finset.range t, 1 / ((j : ℚ) + 1)

/-- The integrand `f(x) = 1 / (1 - x)`, whose improper integral over
`[0, 1)` diverges; the Left Rectangle rule on `[0, 1]` samples only
points `< 1`, where it is well defined. -/
def fdiv : Func := fun x => 1 / (1 - x)

/-- The accumulator values of successive `calc` passes for `fdiv` on
`[0, 1]` with the Left Rectangle rule and starting count `1`
(pass `m` runs with `n = 2^m`): `A 0 = 0`,
`A (m+1) = A m / 2^m + harm (2^m)`. -/
def accSeq : ℕ → ℚ
  | 0 => 0
  | m + 1 => accSeq m / 2 ^ m + harm (2 ^ m)

lemma harm_nonneg (t : ℕ) : 0 ≤ harm t := by
  unfold harm
  apply Finset.sum_nonneg
  intro j _
  positivity

lemma harm_add {s u : ℕ} (h : s ≤ u) :
    harm u = harm s + ∑ j in Finset.Ico s u, 1 / ((j : ℚ) + 1) := by
  unfold harm
  rw [Finset.range_eq_Ico]
  exact (Finset.sum_Ico_consecutive _ (Nat.zero_le s) h).symm

lemma harm_block_le (t : ℕ) : harm (2 ^ (t + 1)) ≤ harm (2 ^ t) + 1 := by
  have hle : (2 : ℕ) ^ t ≤ 2 ^ (t + 1) := Nat.pow_le_pow_right (by norm_num) (by omega)
  rw [harm_add hle]
  have hbound : ∀ j ∈ Finset.Ico ((2 : ℕ) ^ t) (2 ^ (t + 1)),
      1 / ((j : ℚ) + 1) ≤ 1 / (2 ^ t : ℚ) := by
    intro j hj
    have h1 : 2 ^ t ≤ j := (Finset.mem_Ico.mp hj).1
    have h2 : ((2 : ℚ) ^ t) ≤ (j : ℚ) + 1 := by
      have h1' : ((2 ^ t : ℕ) : ℚ) ≤ (j : ℚ) := by exact_mod_cast h1
      push_cast at h1'
      linarith
    have h3 : (0 : ℚ) < 2 ^ t := by positivity
    exact one_div_le_one_div_of_le h3 h2
  have hsum : ∑ j in Finset.Ico ((2 : ℕ) ^ t) (2 ^ (t + 1)), 1 / ((j : ℚ) + 1) ≤ 1 := by
    calc ∑ j in Finset.Ico ((2 : ℕ) ^ t) (2 ^ (t + 1)), 1 / ((j : ℚ) + 1)
        ≤ (Finset.Ico ((2 : ℕ) ^ t) (2 ^ (t + 1))).card • (1 / (2 ^ t : ℚ)) :=
          Finset.sum_le_card_nsmul _ _ _ hbound
      _ = 1 := by
          rw [Nat.card_Ico, nsmul_eq_mul]
          have hcard : 2 ^ (t + 1) - 2 ^ t = 2 ^ t := by
            have h2t : 2 ^ (t + 1) = 2 * 2 ^ t := by ring
            omega
          rw [hcard]
          have h2t : ((2 : ℚ) ^ t) ≠ 0 := by positivity
          push_cast
          field_simp
  linarith

lemma harm_block_ge (t : ℕ) : harm (2 ^ t) + 1 / 2 ≤ harm (2 ^ (t + 1)) := by
  have hle : (2 : ℕ) ^ t ≤ 2 ^ (t + 1) := Nat.pow_le_pow_right (by norm_num) (by omega)
  rw [harm_add hle]
  have hbound : ∀ j ∈ Finset.Ico ((2 : ℕ) ^ t) (2 ^ (t + 1)),
      1 / (2 ^ (t + 1) : ℚ) ≤ 1 / ((j : ℚ) + 1) := by
    intro j hj
    have h1 : j < 2 ^ (t + 1) := (Finset.mem_Ico.mp hj).2
    have h1' : j + 1 ≤ 2 ^ (t + 1) := h1
    have h2 : (j : ℚ) + 1 ≤ ((2 : ℚ) ^ (t + 1)) := by
      have := (Nat.cast_le (α := ℚ)).mpr h1'
      push_cast at this
      linarith
    have h3 : (0 : ℚ) < (j : ℚ) + 1 := by positivity
    exact one_div_le_one_div_of_le h3 h2
  have hsum : (1 : ℚ) / 2 ≤
      ∑ j in Finset.Ico ((2 : ℕ) ^ t) (2 ^ (t + 1)), 1 / ((j : ℚ) + 1) := by
    calc (1 : ℚ) / 2
        = (Finset.Ico ((2 : ℕ) ^ t) (2 ^ (t + 1))).card • (1 / (2 ^ (t + 1) : ℚ)) := by
          rw [Nat.card_Ico, nsmul_eq_mul]
          have hcard : 2 ^ (t + 1) - 2 ^ t = 2 ^ t := by
            have h2t : 2 ^ (t + 1) = 2 * 2 ^ t := by ring
            omega
          rw [hcard]
          have h2t : ((2 : ℚ) ^ t) ≠ 0 := by positivity
          push_cast
          rw [pow_succ]
          field_simp
      _ ≤ ∑ j in Finset.Ico ((2 : ℕ) ^ t) (2 ^ (t + 1)), 1 / ((j : ℚ) + 1) :=
          Finset.card_nsmul_le_sum _ _ _ hbound
  linarith

lemma harm_pow_le (t : ℕ) : harm (2 ^ t) ≤ (t : ℚ) + 1 := by
  induction t with
  | zero => simp [harm, Finset.sum_range_one]
  | succ t ih =>
      have := harm_block_le t
      push_cast
      linarith

lemma accSeq_nonneg (m : ℕ) : 0 ≤ accSeq m := by
  induction m with
  | zero => exact le_refl 0
  | succ m ih =>
      have h1 : (0 : ℚ) ≤ accSeq m / 2 ^ m := by positivity
      have h2 := harm_nonneg (2 ^ m)
      rw [accSeq]
      linarith

lemma accSeq_le (m : ℕ) : accSeq m ≤ (m : ℚ) + 1 := by
  induction m with
  | zero => norm_num [accSeq]
  | succ m ih =>
      rw [accSeq]
      have hpos : (0 : ℚ) < 2 ^ m := by positivity
      have hdiv : accSeq m / 2 ^ m ≤ ((m : ℚ) + 1) / 2 ^ m := by gcongr
      have hone : ((m : ℚ) + 1) / 2 ^ m ≤ 1 := by
        rw [div_le_one hpos]
        have hnat : m + 1 ≤ 2 ^ m := Nat.lt_two_pow m
        exact_mod_cast hnat
      have hharm := harm_pow_le m
      push_cast
      linarith

lemma linear_div_pow_le (t : ℕ) (ht : 4 ≤ t) :
    ((t : ℚ) + 1) / 2 ^ t ≤ 49 / 100 := by
  induction t, ht using Nat.le_induction with
  | base => norm_num
  | succ t ht ih =>
      have hpos : (0 : ℚ) < 2 ^ t := by positivity
      have hstep : ((t : ℚ) + 1 + 1) / 2 ^ (t + 1) ≤ ((t : ℚ) + 1) / 2 ^ t := by
        rw [div_le_div_iff₀ (by positivity) hpos, pow_succ]
        have htq : (4 : ℚ) ≤ (t : ℚ) := by exact_mod_cast ht
        nlinarith
      push_cast
      push_cast at ih
      linarith

lemma accSeq_diff_ge_big (t : ℕ) (ht : 4 ≤ t) :
    1 / 100 ≤ accSeq (t + 2) - accSeq (t + 1) := by
  have h1 : accSeq (t + 2) = accSeq (t + 1) / 2 ^ (t + 1) + harm (2 ^ (t + 1)) :=
    rfl
  have h2 : accSeq (t + 1) = accSeq t / 2 ^ t + harm (2 ^ t) := rfl
  have h3 : 0 ≤ accSeq (t + 1) := accSeq_nonneg _
  have h4 : accSeq t ≤ (t : ℚ) + 1 := accSeq_le t
  have h5 := harm_block_ge t
  have h6 := linear_div_pow_le t ht
  have h7 : (0 : ℚ) < 2 ^ t := by positivity
  have h8 : (0 : ℚ) < 2 ^ (t + 1) := by positivity
  have h9 : 0 ≤ accSeq (t + 1) / 2 ^ (t + 1) := by positivity
  have hq : accSeq t / 2 ^ t ≤ ((t : ℚ) + 1) / 2 ^ t := by gcongr
  rw [h1, h2]
  rw [h2] at h3 h9
  linarith

lemma accSeq_diff_ge (m : ℕ) : 1 / 100 ≤ accSeq (m + 1) - accSeq m := by
  rcases Nat.lt_or_ge m 5 with hm | hm
  · interval_cases m <;>
      norm_num [accSeq, harm, Finset.sum_range_succ, Finset.sum_range_zero]
  · obtain ⟨t, rfl⟩ : ∃ t, m = t + 1 := ⟨m - 1, by omega⟩
    exact accSeq_diff_ge_big t (by omega)

lemma list_map_range_sum (g : ℕ → ℚ) (N : ℕ) :
    ((List.range N).map g).sum = ∑ i in Finset.range N, g i := by
  induction N with
  | zero => simp
  | succ N ih => simp [List.range_succ, Finset.sum_range_succ, ih]

lemma sum_fdiv (N : ℕ) (hN : 0 < N) :
    ∑ i in Finset.range N, fdiv ((i : ℚ) / N) = N * harm N := by
  have hN0 : (N : ℚ) ≠ 0 := by exact_mod_cast hN.ne'
  have hstep : ∀ i ∈ Finset.range N,
      fdiv ((i : ℚ) / N) = (N : ℚ) * (1 / ((N : ℚ) - i)) := by
    intro i hi
    have hiN : (i : ℚ) < N := by exact_mod_cast Finset.mem_range.mp hi
    have hNi : ((N : ℚ) - i) ≠ 0 := ne_of_gt (by linarith)
    unfold fdiv
    rw [show (1 : ℚ) - (i : ℚ) / N = ((N : ℚ) - i) / N by field_simp,
      one_div_div, div_eq_mul_one_div]
  rw [Finset.sum_congr rfl hstep, ← Finset.mul_sum]
  congr 1
  unfold harm
  rw [← Finset.sum_range_reflect (fun j => 1 / ((j : ℚ) + 1)) N]
  apply Finset.sum_congr rfl
  intro i hi
  have hi' : i < N := Finset.mem_range.mp hi
  have hcast : ((N - 1 - i : ℕ) : ℚ) = (N : ℚ) - 1 - i := by
    have h1 : i ≤ N - 1 := by omega
    have h2 : 1 ≤ N := hN
    push_cast [Nat.cast_sub h1, Nat.cast_sub h2]
    ring
  rw [hcast]
  ring_nf

lemma passUpdate_fdiv (acc : ℚ) (N : ℕ) (hN : 0 < N) :
    passUpdate .rectLeft fdiv 0 1 acc ((N : ℕ) : ℤ) = acc / N + harm N := by
  have hN0 : (N : ℚ) ≠ 0 := by exact_mod_cast hN.ne'
  have htoNat : ((N : ℤ)).toNat = N := Int.toNat_natCast N
  have hcast : (((N : ℤ)) : ℚ) = (N : ℚ) := by push_cast; ring
  unfold passUpdate samplePoints passMult
  simp only [htoNat, hcast, List.map_map]
  rw [list_map_range_sum]
  have hsum : ∑ i in Finset.range N,
      ((fun wx : ℚ × ℚ => wx.1 * fdiv wx.2) ∘
        fun i : ℕ => ((1 : ℚ), 0 + (1 - 0) / (N : ℚ) * i)) i
      = (N : ℚ) * harm N := by
    rw [← sum_fdiv N hN]
    apply Finset.sum_congr rfl
    intro i _
    simp only [Function.comp_apply, one_mul]
    congr 1
    field_simp
  rw [hsum]
  field_simp
  ring

lemma estim_fdiv (m : ℕ) : estim .rectLeft fdiv 0 1 1 m = accSeq m := by
  induction m with
  | zero => rfl
  | succ m ih =>
      have hn : ((1 : ℤ) * 2 ^ m) = (((2 ^ m : ℕ) : ℤ)) := by push_cast; ring
      rw [estim, ih, hn,
        passUpdate_fdiv (accSeq m) (2 ^ m) (Nat.pos_pow_of_pos m (by norm_num))]
      rw [accSeq]
      push_cast
      ring

lemma fdiv_not_convergesAt (m : ℕ) :
    ¬ convergesAt .rectLeft fdiv 0 1 1 1 (1 / 100) m := by
  unfold convergesAt rungeErr
  rw [estim_fdiv, estim_fdiv]
  intro hlt
  rw [show ((2 : ℚ) ^ (1 : ℕ) - 1) = 1 by norm_num, div_one] at hlt
  have hd := accSeq_diff_ge m
  have habs : 1 / 100 ≤ |accSeq (m + 1) - accSeq m| :=
    le_trans hd (le_abs_self _)
  linarith

/-- C6.  The refinement loop has no iteration cap and there is a
constructible Expression/rule/epsilon combination on which `calc()`
never terminates: for `f(x) = 1/(1-x)` (divergent integral over
`[0, 1)`) with the Left Rectangle rule, `a = 0 < 1 = b`, starting
`n = 1` and `epsilon = 1/100`, the construction succeeds, yet for
EVERY fuel bound the loop fails to exit — each pass estimate exceeds
its predecessor by at least `1/100`, so the Runge test never
succeeds. -/
theorem claim6_no_iteration_cap :
    rectangleLeftInit fdiv 0 1 1 (1 / 100) =
      .ok ⟨fdiv, 0, 1, 1, 1, 1 / 100, 1⟩ ∧
    ∀ fuel : ℕ,
      Method.calcFuel ⟨fdiv, 0, 1, 1, 1, 1 / 100, 1⟩ .rectLeft fuel = none := by
  constructor
  · norm_num [rectangleLeftInit, solutionMethodInit]
  · intro fuel
    unfold Method.calcFuel
    rw [loopGo_from_start]
    exact loopGo_never .rectLeft fdiv 0 1 1 (1 / 100) 1
      fdiv_not_convergesAt fuel 0

end QuadLab
